import Mathlib

/-!
Verification of the fill_missing_data tool
(src/whitebox_tools/src/bin/fill_missing_data.rs, function run).

The algorithmic core of run is embedded shallowly:
cell values are modelled as exact rationals, the grid scan loops become
folds over the row-major list of cell coordinates, and the two passes
(boundary extraction, hole interpolation) are state-passing functions on
a RunState record holding the read-only input raster, the proximity
index, and the ordered trace of output writes.

The Raster indexing operator and the FixedRadiusSearch structure live in
the whitebox_tools library crate, outside this repository snapshot, so
those two collaborators are modelled from the spec (their doc comments
say so explicitly); everything else is translated directly from the
source of run.
-/

namespace FillMissingData

/-- A raster grid: dimensions, the nodata sentinel, and the in-bounds cell
values, row-major.  Cell values are modelled as exact rationals in place of
f64 (rounding is not modelled). -/
structure Raster where
  rows : ℕ
  columns : ℕ
  nodata : ℚ
  data : ℕ → ℕ → ℚ

/-- Modelled from the spec: the Index impl used by `input[(row, col)]` is in
the whitebox_tools raster module, not in this snapshot.  Spec section 6: read
access returns the configured nodata sentinel for out-of-bounds coordinates. -/
def Raster.valueAt (g : Raster) (row col : ℤ) : ℚ :=
  if 0 ≤ row ∧ row < (g.rows : ℤ) ∧ 0 ≤ col ∧ col < (g.columns : ℤ) then
    g.data row.toNat col.toNat
  else g.nodata

/-- The proximity index: the configured search radius and the stored samples,
each sample a triple (x, y, value) in scan order of insertion. -/
structure FixedRadiusSearch where
  radius : ℚ
  samples : List (ℚ × ℚ × ℚ)

/-- Construction with a fixed radius, mirroring FixedRadiusSearch::new. -/
def FixedRadiusSearch.new (radius : ℚ) : FixedRadiusSearch := ⟨radius, []⟩

/-- Insertion of one sample, mirroring frs.insert(x, y, value). -/
def FixedRadiusSearch.insert (frs : FixedRadiusSearch) (x y value : ℚ) :
    FixedRadiusSearch :=
  ⟨frs.radius, frs.samples ++ [(x, y, value)]⟩

/-- Squared Euclidean distance between two points. -/
def distSq (x1 y1 x2 y2 : ℚ) : ℚ := (x1 - x2) * (x1 - x2) + (y1 - y2) * (y1 - y2)

/-- Modelled from the spec: the search method of FixedRadiusSearch is in the
whitebox_tools structures module, not in this snapshot.  Spec section 4.3:
search(x, y) returns all samples whose Euclidean distance to (x, y) is at
most the configured radius, each paired with its distance.  The pair here
carries the squared distance instead of the distance, which keeps the model
inside the rationals; this is faithful for the consumer in run, which uses a
distance d only through the guard d > 0 and the product d * d, and these
correspond exactly to dsq > 0 and dsq.  The radius test (distance at most
radius) becomes dsq at most radius * radius. -/
def FixedRadiusSearch.search (frs : FixedRadiusSearch) (x y : ℚ) :
    List (ℚ × ℚ) :=
  (frs.samples.filter fun s =>
    decide (distSq s.1 s.2.1 x y ≤ frs.radius * frs.radius)).map
    fun s => (s.2.2, distSq s.1 s.2.1 x y)

/-- The odd-size coercion of run: `if (filter_size as f64 / 2f64).floor() ==
(filter_size as f64 / 2f64) { filter_size += 1; }`, with f64 arithmetic
idealised over the rationals. -/
def coerceOddFilter (filterSize : ℕ) : ℕ :=
  if ((⌊(filterSize : ℚ) / 2⌋ : ℚ) = (filterSize : ℚ) / 2) then filterSize + 1
  else filterSize

/-- The neighbour column offsets d_x of run. -/
def d_x : List ℤ := [1, 1, 1, 0, -1, -1, -1, 0]

/-- The neighbour row offsets d_y of run. -/
def d_y : List ℤ := [-1, 0, 1, 1, 1, 0, -1, -1]

/-- The inner neighbour loop of the extraction pass: find the first index i
in 0..8 whose neighbour reads as nodata (the source breaks at the first such
neighbour). -/
def firstNodataNeighbor (g : Raster) (row col : ℤ) : Option ℕ :=
  (List.range 8).find? fun i =>
    decide (g.valueAt (row + d_y.getD i 0) (col + d_x.getD i 0) = g.nodata)

/-- State threaded through the two passes of run: the input raster (read
only in the source), the proximity index, and the ordered trace of writes
(row, col, value) to the output raster. -/
structure RunState where
  input : Raster
  frs : FixedRadiusSearch
  writes : List (ℕ × ℕ × ℚ)

/-- The row-major list of in-bounds cell coordinates visited by the
`for row in 0..rows { for col in 0..columns { ... } }` loops. -/
def cellList (g : Raster) : List (ℕ × ℕ) :=
  List.range g.rows ×ˢ List.range g.columns

/-- The loop body of the extraction pass at one cell: if the cell value is
not nodata and some neighbour reads as nodata, insert (col, row, value) into
the proximity index and break out of the neighbour loop. -/
def extractStep (s : RunState) (rc : ℕ × ℕ) : RunState :=
  if s.input.valueAt rc.1 rc.2 ≠ s.input.nodata then
    match firstNodataNeighbor s.input rc.1 rc.2 with
    | some _ =>
        ⟨s.input, s.frs.insert (rc.2 : ℚ) (rc.1 : ℚ) (s.input.valueAt rc.1 rc.2),
          s.writes⟩
    | none => s
  else s

/-- The boundary-extraction pass: the double loop over all cells. -/
def extractPass (s : RunState) : RunState :=
  (cellList s.input).foldl extractStep s

/-- The interpolated value of run at one cell (exact rational model): copy
for a non-hole cell; for a hole, query the index at (col, row), accumulate
sum_weights over the samples with positive distance, then accumulate z the
same way, and the accumulated z is the written value. -/
def interpValue (g : Raster) (frs : FixedRadiusSearch) (row col : ℕ) : ℚ :=
  if g.valueAt row col = g.nodata then
    let ret := frs.search (col : ℚ) (row : ℚ)
    let sumWeights : ℚ :=
      ret.foldl (fun acc p => if 0 < p.2 then acc + 1 / p.2 else acc) 0
    ret.foldl
      (fun acc p => if 0 < p.2 then acc + p.1 * (1 / p.2) / sumWeights else acc) 0
  else g.valueAt row col

/-- The loop body of the interpolation pass at one cell: append the write of
the computed (or copied) value for that cell to the output trace. -/
def interpStep (s : RunState) (rc : ℕ × ℕ) : RunState :=
  ⟨s.input, s.frs, s.writes ++ [(rc.1, rc.2, interpValue s.input s.frs rc.1 rc.2)]⟩

/-- The hole-interpolation pass: the double loop over all cells. -/
def interpPass (s : RunState) : RunState :=
  (cellList s.input).foldl interpStep s

/-- The state at the start of run: input raster, an empty proximity index
built with the coerced filter size as radius, and no writes yet. -/
def initialState (g : Raster) (filterSize : ℕ) : RunState :=
  ⟨g, FixedRadiusSearch.new (coerceOddFilter filterSize : ℚ), []⟩

/-- The state after the boundary-extraction pass of run. -/
def afterExtract (g : Raster) (filterSize : ℕ) : RunState :=
  extractPass (initialState g filterSize)

/-- The state after the hole-interpolation pass of run. -/
def afterInterp (g : Raster) (filterSize : ℕ) : RunState :=
  interpPass (afterExtract g filterSize)

/-- The proximity index as populated by the extraction pass. -/
def extractFRS (g : Raster) (filterSize : ℕ) : FixedRadiusSearch :=
  (afterExtract g filterSize).frs

/-- The search result consumed when interpolating the hole at (row, col):
the source queries frs.search(col as f64, row as f64). -/
def searchResult (g : Raster) (filterSize : ℕ) (row col : ℕ) : List (ℚ × ℚ) :=
  (extractFRS g filterSize).search (col : ℚ) (row : ℚ)

/-- The samples of the search result with strictly positive distance: the
ones that pass the `dist > 0.0` guard of both accumulation loops. -/
def positiveSamples (g : Raster) (filterSize : ℕ) (row col : ℕ) :
    List (ℚ × ℚ) :=
  (searchResult g filterSize row col).filter fun p => decide (0 < p.2)

/-- The value run writes to the output raster at an in-bounds cell. -/
def outputValue (g : Raster) (filterSize : ℕ) (row col : ℕ) : ℚ :=
  interpValue g (extractFRS g filterSize) row col

/-- The list of samples the extraction loop body appends at one cell. -/
def emitCell (g : Raster) (rc : ℕ × ℕ) : List (ℚ × ℚ × ℚ) :=
  if g.valueAt rc.1 rc.2 ≠ g.nodata ∧ (firstNodataNeighbor g rc.1 rc.2).isSome
  then [((rc.2 : ℚ), (rc.1 : ℚ), g.valueAt rc.1 rc.2)] else []

/-- The predicate picking out the samples stored for the cell at (row, col):
a sample matches when its x field is col and its y field is row. -/
def cellKey (row col : ℕ) : ℚ × ℚ × ℚ → Bool :=
  fun s => decide (s.1 = (col : ℚ) ∧ s.2.1 = (row : ℚ))

/-- A minimal model of f64 for the claims that distinguish the not-a-number
outcome of a degenerate division from an ordinary zero.  Ordinary values
carry exact rationals (rounding is not modelled, and signed zero is not
distinguished: zero behaves as positive zero); nan absorbs every operation;
infinities carry a sign. -/
inductive FP where
  | num (q : ℚ)
  | nan : FP
  | inf (positive : Bool)
deriving DecidableEq

/-- Addition in the FP model. -/
def FP.add : FP → FP → FP
  | num a, num b => num (a + b)
  | nan, _ => nan
  | _, nan => nan
  | inf s, inf t => if s = t then inf s else nan
  | inf s, num _ => inf s
  | num _, inf s => inf s

/-- Multiplication in the FP model. -/
def FP.mul : FP → FP → FP
  | num a, num b => num (a * b)
  | nan, _ => nan
  | _, nan => nan
  | inf s, inf t => inf (s == t)
  | inf s, num b => if b = 0 then nan else inf (s == decide (0 < b))
  | num a, inf s => if a = 0 then nan else inf (s == decide (0 < a))

/-- Division in the FP model: the degenerate 0/0 yields nan, a nonzero
numerator over zero yields a signed infinity. -/
def FP.div : FP → FP → FP
  | num a, num b =>
      if b = 0 then (if a = 0 then nan else inf (decide (0 < a))) else num (a / b)
  | nan, _ => nan
  | _, nan => nan
  | inf _, inf _ => nan
  | inf s, num b => if 0 ≤ b then inf s else inf (!s)
  | num _, inf _ => num 0

/-- The interpolation body of run with the accumulator arithmetic in the FP
model instead of the exact rationals of interpValue: same guards, same
operations in the same order, so that the value a hole receives can be
compared against the nan result of a degenerate 0/0 division. -/
def interpValueFP (g : Raster) (frs : FixedRadiusSearch) (row col : ℕ) : FP :=
  if g.valueAt row col = g.nodata then
    let ret := frs.search (col : ℚ) (row : ℚ)
    let sumWeights : FP :=
      ret.foldl (fun acc p =>
        if 0 < p.2 then acc.add ((FP.num 1).div (FP.num p.2)) else acc) (FP.num 0)
    ret.foldl (fun acc p =>
      if 0 < p.2 then
        acc.add (((FP.num p.1).mul ((FP.num 1).div (FP.num p.2))).div sumWeights)
      else acc) (FP.num 0)
  else FP.num (g.valueAt row col)

/-- The FP-model value run writes to the output raster at an in-bounds cell. -/
def outputValueFP (g : Raster) (filterSize : ℕ) (row col : ℕ) : FP :=
  interpValueFP g (extractFRS g filterSize) row col

/-- The boundary-cell condition: the cell value is not nodata and at least
one of the eight neighbour offsets reads as nodata (out-of-bounds reads
yielding nodata). -/
def boundaryCond (g : Raster) (row col : ℕ) : Prop :=
  g.valueAt row col ≠ g.nodata ∧
    ∃ i < 8, g.valueAt ((row : ℤ) + d_y.getD i 0) ((col : ℤ) + d_x.getD i 0) =
      g.nodata

instance boundaryCondDec (g : Raster) (row col : ℕ) :
    Decidable (boundaryCond g row col) := by
  unfold boundaryCond
  infer_instance

/-- A 3 by 3 raster whose centre cell is a hole and whose other eight cells
all hold the value 10. -/
def gridRing : Raster :=
  ⟨3, 3, -999, fun r c => if r = 1 ∧ c = 1 then -999 else 10⟩

/-- A 3 by 3 raster whose centre cell is a hole, the other cells holding
pairwise different values r * 3 + c. -/
def gridVaried : Raster :=
  ⟨3, 3, -999, fun r c => if r = 1 ∧ c = 1 then -999 else (r * 3 + c : ℚ)⟩

/-- A 2 by 2 raster with no hole at all. -/
def gridAllValid : Raster := ⟨2, 2, -999, fun r c => (r * 2 + c : ℚ)⟩

/-- A 1 by 1 raster whose only cell is a hole. -/
def gridAllHole : Raster := ⟨1, 1, -999, fun _ _ => -999⟩

/-- A 1 by 1 raster whose nodata sentinel is 0 and whose only cell is a
hole. -/
def gridZeroNodata : Raster := ⟨1, 1, 0, fun _ _ => 0⟩

lemma extractStep_eq (s : RunState) (rc : ℕ × ℕ) :
    extractStep s rc =
      ⟨s.input, ⟨s.frs.radius, s.frs.samples ++ emitCell s.input rc⟩, s.writes⟩ := by
  by_cases hv : s.input.valueAt rc.1 rc.2 ≠ s.input.nodata
  · cases h : firstNodataNeighbor s.input rc.1 rc.2 with
    | none => simp [extractStep, emitCell, hv, h]
    | some i => simp [extractStep, emitCell, FixedRadiusSearch.insert, hv, h]
  · simp [extractStep, emitCell, hv]

lemma foldl_extractStep (l : List (ℕ × ℕ)) (s : RunState) :
    l.foldl extractStep s =
      ⟨s.input, ⟨s.frs.radius, s.frs.samples ++ l.flatMap (emitCell s.input)⟩,
        s.writes⟩ := by
  induction l generalizing s with
  | nil => simp
  | cons rc l ih =>
    rw [List.foldl_cons, ih, extractStep_eq]
    simp [List.flatMap_cons]

lemma afterExtract_eq (g : Raster) (filterSize : ℕ) :
    afterExtract g filterSize =
      ⟨g, ⟨(coerceOddFilter filterSize : ℚ), (cellList g).flatMap (emitCell g)⟩,
        []⟩ := by
  have h := foldl_extractStep (cellList g) (initialState g filterSize)
  simpa [afterExtract, extractPass, initialState, FixedRadiusSearch.new] using h

lemma extractFRS_samples (g : Raster) (filterSize : ℕ) :
    (extractFRS g filterSize).samples = (cellList g).flatMap (emitCell g) := by
  rw [extractFRS, afterExtract_eq]

lemma extractFRS_radius (g : Raster) (filterSize : ℕ) :
    (extractFRS g filterSize).radius = (coerceOddFilter filterSize : ℚ) := by
  rw [extractFRS, afterExtract_eq]

lemma foldl_interpStep (l : List (ℕ × ℕ)) (s : RunState) :
    l.foldl interpStep s =
      ⟨s.input, s.frs,
        s.writes ++ l.map fun rc => (rc.1, rc.2, interpValue s.input s.frs rc.1 rc.2)⟩ := by
  induction l generalizing s with
  | nil => simp
  | cons rc l ih =>
    rw [List.foldl_cons, ih]
    simp [interpStep]

lemma afterInterp_eq (g : Raster) (filterSize : ℕ) :
    afterInterp g filterSize =
      ⟨g, extractFRS g filterSize,
        (cellList g).map fun rc => (rc.1, rc.2, outputValue g filterSize rc.1 rc.2)⟩ := by
  have h := foldl_interpStep (cellList (afterExtract g filterSize).input)
    (afterExtract g filterSize)
  rw [afterInterp, interpPass, h, afterExtract_eq]
  simp [outputValue, extractFRS, afterExtract_eq]

lemma emitCell_filter_self (g : Raster) (row col : ℕ) :
    (emitCell g (row, col)).filter (cellKey row col) = emitCell g (row, col) := by
  unfold emitCell
  split
  · simp [cellKey]
  · rfl

lemma emitCell_filter_ne (g : Raster) (row col : ℕ) {rc : ℕ × ℕ}
    (h : rc ≠ (row, col)) :
    (emitCell g rc).filter (cellKey row col) = [] := by
  unfold emitCell
  split
  · have hk : cellKey row col ((rc.2 : ℚ), (rc.1 : ℚ), g.valueAt rc.1 rc.2) = false := by
      simp only [cellKey, decide_eq_false_iff_not]
      rintro ⟨h2, h1⟩
      exact h (Prod.ext (by exact_mod_cast h1) (by exact_mod_cast h2))
    simp [List.filter_cons, hk]
  · rfl

lemma flatMap_eq_nil_of_forall {α β : Type} {l : List α} {f : α → List β}
    (h : ∀ a ∈ l, f a = []) : l.flatMap f = [] := by
  induction l with
  | nil => rfl
  | cons a l ih =>
    rw [List.flatMap_cons, h a (List.mem_cons_self a l), List.nil_append]
    exact ih fun b hb => h b (List.mem_cons_of_mem a hb)

lemma flatMap_eq_of_unique {α β : Type} {l : List α} {f : α → List β} {a : α}
    (hnd : l.Nodup) (ha : a ∈ l) (h : ∀ b ∈ l, b ≠ a → f b = []) :
    l.flatMap f = f a := by
  induction l with
  | nil => cases ha
  | cons b l ih =>
    rcases List.mem_cons.mp ha with rfl | ha'
    · have hz : l.flatMap f = [] := flatMap_eq_nil_of_forall fun c hc =>
        h c (List.mem_cons_of_mem _ hc)
          (fun hca => (List.nodup_cons.mp hnd).1 (hca ▸ hc))
      rw [List.flatMap_cons, hz, List.append_nil]
    · have hba : b ≠ a := fun hba => (List.nodup_cons.mp hnd).1 (hba ▸ ha')
      rw [List.flatMap_cons, h b (List.mem_cons_self b l) hba, List.nil_append]
      exact ih (List.nodup_cons.mp hnd).2 ha'
        fun c hc => h c (List.mem_cons_of_mem _ hc)

lemma cellList_nodup (g : Raster) : (cellList g).Nodup :=
  (List.nodup_range g.rows).product (List.nodup_range g.columns)

lemma mem_cellList {g : Raster} {row col : ℕ}
    (hr : row < g.rows) (hc : col < g.columns) : (row, col) ∈ cellList g :=
  List.mem_product.mpr ⟨List.mem_range.mpr hr, List.mem_range.mpr hc⟩

/-- The samples stored for the cell at (row, col) are exactly what the
extraction loop body emits there: one sample when the cell is a boundary
cell, none otherwise. -/
lemma samples_filter_key (g : Raster) (filterSize : ℕ) {row col : ℕ}
    (hr : row < g.rows) (hc : col < g.columns) :
    ((extractFRS g filterSize).samples.filter (cellKey row col)) =
      emitCell g (row, col) := by
  rw [extractFRS_samples, List.filter_flatMap]
  rw [flatMap_eq_of_unique (cellList_nodup g) (mem_cellList hr hc)
    (fun b _ hb => emitCell_filter_ne g row col hb)]
  exact emitCell_filter_self g row col

lemma foldl_guard_sum (l : List (ℚ × ℚ)) (f : ℚ × ℚ → ℚ) (a : ℚ) :
    l.foldl (fun acc p => if 0 < p.2 then acc + f p else acc) a =
      a + ((l.filter fun p => decide (0 < p.2)).map f).sum := by
  induction l generalizing a with
  | nil => simp
  | cons p l ih =>
    by_cases hp : 0 < p.2
    · rw [List.foldl_cons, if_pos hp, ih, List.filter_cons,
        if_pos (decide_eq_true hp), List.map_cons, List.sum_cons]
      ring
    · rw [List.foldl_cons, if_neg hp, ih, List.filter_cons,
        if_neg (by simpa using hp)]

lemma interpValue_hole (g : Raster) (frs : FixedRadiusSearch) (row col : ℕ)
    (h : g.valueAt row col = g.nodata) :
    interpValue g frs row col =
      (((frs.search (col : ℚ) (row : ℚ)).filter fun p => decide (0 < p.2)).map
        fun p => p.1 * (1 / p.2) /
          ((((frs.search (col : ℚ) (row : ℚ)).filter fun p =>
            decide (0 < p.2)).map fun p => 1 / p.2).sum)).sum := by
  simp only [interpValue, h, if_true, eq_self_iff_true]
  rw [foldl_guard_sum, foldl_guard_sum, zero_add, zero_add]

lemma sum_map_div_const (l : List (ℚ × ℚ)) (f : ℚ × ℚ → ℚ) (S : ℚ) :
    (l.map fun p => f p / S).sum = (l.map f).sum / S := by
  simpa [div_eq_mul_inv] using List.sum_map_mul_right l f S⁻¹

/-- For a hole cell, the written value equals the ratio of the weighted
value sum to the weight sum, over the positive-distance samples.  This holds
with no side condition: when the weight sum is zero both sides are zero in
the rational model, because every summand of the z loop carries the factor
1 / sum_weights. -/
lemma outputValue_hole_ratio (g : Raster) (filterSize : ℕ) (row col : ℕ)
    (h : g.valueAt row col = g.nodata) :
    outputValue g filterSize row col =
      ((positiveSamples g filterSize row col).map fun p => p.1 * (1 / p.2)).sum /
        ((positiveSamples g filterSize row col).map fun p => 1 / p.2).sum := by
  rw [outputValue, interpValue_hole g _ row col h, ← sum_map_div_const]
  rfl

lemma coerceOddFilter_eq (f : ℕ) :
    coerceOddFilter f = if f % 2 = 0 then f + 1 else f := by
  rcases Nat.even_or_odd f with ⟨k, hk⟩ | ⟨k, hk⟩
  · have h2 : (f : ℚ) / 2 = ((k : ℤ) : ℚ) := by subst hk; push_cast; ring
    have hfl : (⌊(f : ℚ) / 2⌋ : ℚ) = (f : ℚ) / 2 := by
      rw [h2, Int.floor_intCast]
    rw [coerceOddFilter, if_pos hfl, if_pos (by omega)]
  · have hfl : (⌊(f : ℚ) / 2⌋ : ℚ) ≠ (f : ℚ) / 2 := by
      intro hq
      have h2 : (f : ℚ) = 2 * (⌊(f : ℚ) / 2⌋ : ℚ) := by rw [hq]; ring
      have h3 : (f : ℤ) = 2 * ⌊(f : ℚ) / 2⌋ := by exact_mod_cast h2
      subst hk
      push_cast at h3
      omega
    rw [coerceOddFilter, if_neg hfl, if_neg (by omega)]

lemma countP_eq_one_of_unique {α : Type} {l : List α} {p : α → Bool} {a : α}
    (hnd : l.Nodup) (ha : a ∈ l) (hpa : p a = true)
    (hother : ∀ b ∈ l, b ≠ a → p b = false) :
    l.countP p = 1 := by
  induction l with
  | nil => cases ha
  | cons b l ih =>
    rw [List.countP_cons]
    rcases List.mem_cons.mp ha with rfl | ha'
    · have hz : l.countP p = 0 := List.countP_eq_zero.mpr fun c hc => by
        rw [hother c (List.mem_cons_of_mem _ hc)
          fun hca => (List.nodup_cons.mp hnd).1 (hca ▸ hc)]
        exact Bool.false_ne_true
      rw [hz, if_pos hpa]
    · have hb : p b = false := hother b (List.mem_cons_self b l)
        fun hba => (List.nodup_cons.mp hnd).1 (hba ▸ ha')
      rw [ih (List.nodup_cons.mp hnd).2 ha'
        (fun c hc hca => hother c (List.mem_cons_of_mem _ hc) hca),
        if_neg (by rw [hb]; exact Bool.false_ne_true)]

lemma foldl_guard_const {β : Type} (l : List (ℚ × ℚ)) (f : β → ℚ × ℚ → β) :
    ∀ a : β, (l.filter fun p => decide (0 < p.2)) = [] →
      l.foldl (fun acc p => if 0 < p.2 then f acc p else acc) a = a := by
  induction l with
  | nil => intro a _; rfl
  | cons p l ih =>
    intro a h
    rw [List.filter_cons] at h
    by_cases hp : 0 < p.2
    · rw [if_pos (decide_eq_true hp)] at h
      cases h
    · rw [if_neg (by simpa using hp)] at h
      rw [List.foldl_cons, if_neg hp]
      exact ih a h

lemma firstNodataNeighbor_isSome_iff (g : Raster) (row col : ℤ) :
    (firstNodataNeighbor g row col).isSome ↔
      ∃ i < 8, g.valueAt (row + d_y.getD i 0) (col + d_x.getD i 0) = g.nodata := by
  rw [firstNodataNeighbor, List.find?_isSome]
  constructor
  · rintro ⟨i, hi, hp⟩
    exact ⟨i, List.mem_range.mp hi, of_decide_eq_true hp⟩
  · rintro ⟨i, hi, hp⟩
    exact ⟨i, List.mem_range.mpr hi, decide_eq_true hp⟩

lemma mem_search_iff {frs : FixedRadiusSearch} {x y : ℚ} {q : ℚ × ℚ} :
    q ∈ frs.search x y ↔ ∃ s ∈ frs.samples,
      distSq s.1 s.2.1 x y ≤ frs.radius * frs.radius ∧
      q = (s.2.2, distSq s.1 s.2.1 x y) := by
  rw [FixedRadiusSearch.search]
  constructor
  · intro hq
    rcases List.mem_map.mp hq with ⟨s, hs, rfl⟩
    rcases List.mem_filter.mp hs with ⟨hm, hd⟩
    exact ⟨s, hm, of_decide_eq_true hd, rfl⟩
  · rintro ⟨s, hm, hd, rfl⟩
    exact List.mem_map.mpr ⟨s, List.mem_filter.mpr ⟨hm, decide_eq_true hd⟩, rfl⟩

lemma coerceOddFilter_mono {f1 f2 : ℕ} (h : f1 ≤ f2) :
    coerceOddFilter f1 ≤ coerceOddFilter f2 := by
  rw [coerceOddFilter_eq, coerceOddFilter_eq]
  split <;> split <;> omega

lemma mem_positiveSamples_pos {g : Raster} {filterSize row col : ℕ}
    {p : ℚ × ℚ} (hp : p ∈ positiveSamples g filterSize row col) : 0 < p.2 :=
  of_decide_eq_true (List.mem_filter.mp hp).2

lemma weightSum_pos {g : Raster} {filterSize row col : ℕ}
    (hne : positiveSamples g filterSize row col ≠ []) :
    0 < ((positiveSamples g filterSize row col).map fun p => 1 / p.2).sum := by
  apply List.sum_pos
  · intro x hx
    rcases List.mem_map.mp hx with ⟨p, hp, rfl⟩
    have := mem_positiveSamples_pos hp
    positivity
  · simpa using hne

/-- For a hole whose search result has no positive-distance sample, both
guarded loops skip every iteration, so the written value is the initial
accumulator value 0 and the division by sum_weights is never executed. -/
lemma outputValue_empty (g : Raster) (filterSize row col : ℕ)
    (hhole : g.valueAt row col = g.nodata)
    (hempty : positiveSamples g filterSize row col = []) :
    outputValue g filterSize row col = 0 := by
  simp only [outputValue, interpValue, hhole, if_true, eq_self_iff_true]
  exact foldl_guard_const _ _ 0 hempty

/-- The same skip in the FP model: the accumulator stays the ordinary
number 0. -/
lemma outputValueFP_empty (g : Raster) (filterSize row col : ℕ)
    (hhole : g.valueAt row col = g.nodata)
    (hempty : positiveSamples g filterSize row col = []) :
    outputValueFP g filterSize row col = FP.num 0 := by
  simp only [outputValueFP, interpValueFP, hhole, if_true, eq_self_iff_true]
  exact foldl_guard_const _ _ (FP.num 0) hempty

attribute [local semireducible] Rat.add Rat.mul Rat.inv Rat.sub

/-- Claim C1: for every hole cell whose proximity search returns at least
one sample at strictly positive distance, the value written to the output
grid equals the inverse-square-distance weighted average of those samples:
the sum of value times weight over the sum of weights, each weight the
reciprocal of the squared distance, with zero-distance samples excluded
from both sums. -/
theorem claim1_idw_ratio (g : Raster) (filterSize row col : ℕ)
    (hhole : g.valueAt row col = g.nodata)
    (_hne : positiveSamples g filterSize row col ≠ []) :
    outputValue g filterSize row col =
      ((positiveSamples g filterSize row col).map fun p => p.1 * (1 / p.2)).sum /
        ((positiveSamples g filterSize row col).map fun p => 1 / p.2).sum :=
  outputValue_hole_ratio g filterSize row col hhole

theorem claim1_idw_ratio_witness :
    gridRing.valueAt 1 1 = gridRing.nodata ∧
    positiveSamples gridRing 3 1 1 ≠ [] ∧
    outputValue gridRing 3 1 1 =
      ((positiveSamples gridRing 3 1 1).map fun p => p.1 * (1 / p.2)).sum /
        ((positiveSamples gridRing 3 1 1).map fun p => 1 / p.2).sum :=
  ⟨by decide, by decide, claim1_idw_ratio gridRing 3 1 1 (by decide) (by decide)⟩

/-- Claim C2 counterexample: on the one-cell all-hole raster, the hole cell
has an empty search result, yet the value written in the FP model is the
ordinary number 0, not the nan outcome of the degenerate 0/0 division that
the claim asserts is written: the guards skip the division entirely. -/
theorem claim2_division_counterexample :
    gridAllHole.valueAt 0 0 = gridAllHole.nodata ∧
    searchResult gridAllHole 3 0 0 = [] ∧
    (FP.num 0).div (FP.num 0) = FP.nan ∧
    outputValueFP gridAllHole 3 0 0 = FP.num 0 ∧
    outputValueFP gridAllHole 3 0 0 ≠ (FP.num 0).div (FP.num 0) :=
  ⟨by decide, by decide, by decide, by decide, by decide⟩

/-- Claim C2 amended: for every hole cell whose search returns no sample at
strictly positive distance, the dist > 0 guards skip both accumulation
loops entirely, so the degenerate division is never executed and the value
written is the plain number 0 (the accumulator's initial value), not the
0/0 result. -/
theorem claim2_degenerate_amended (g : Raster) (filterSize row col : ℕ)
    (hhole : g.valueAt row col = g.nodata)
    (hempty : positiveSamples g filterSize row col = []) :
    outputValueFP g filterSize row col = FP.num 0 ∧
    outputValueFP g filterSize row col ≠ (FP.num 0).div (FP.num 0) := by
  have h0 := outputValueFP_empty g filterSize row col hhole hempty
  refine ⟨h0, ?_⟩
  rw [h0]
  decide

theorem claim2_degenerate_amended_witness :
    gridAllHole.valueAt 0 0 = gridAllHole.nodata ∧
    positiveSamples gridAllHole 3 0 0 = [] ∧
    (outputValueFP gridAllHole 3 0 0 = FP.num 0 ∧
      outputValueFP gridAllHole 3 0 0 ≠ (FP.num 0).div (FP.num 0)) :=
  ⟨by decide, by decide,
    claim2_degenerate_amended gridAllHole 3 0 0 (by decide) (by decide)⟩

/-- Claim C4: an even filter size 2k is coerced to the effective radius
2k + 1, an odd filter size passes through unchanged, the radius used is
always odd, and it is exactly the radius the proximity index is built
with. -/
theorem claim4_odd_coercion (g : Raster) (filterSize k : ℕ) :
    (filterSize = 2 * k → coerceOddFilter filterSize = 2 * k + 1) ∧
    (filterSize = 2 * k + 1 → coerceOddFilter filterSize = 2 * k + 1) ∧
    coerceOddFilter filterSize % 2 = 1 ∧
    (extractFRS g filterSize).radius = (coerceOddFilter filterSize : ℚ) := by
  refine ⟨?_, ?_, ?_, extractFRS_radius g filterSize⟩
  · intro h
    subst h
    rw [coerceOddFilter_eq]
    split <;> omega
  · intro h
    subst h
    rw [coerceOddFilter_eq]
    split <;> omega
  · rw [coerceOddFilter_eq]
    split <;> omega

theorem claim4_odd_coercion_witness :
    coerceOddFilter 10 = 2 * 5 + 1 ∧ coerceOddFilter 11 = 2 * 5 + 1 ∧
    coerceOddFilter 10 % 2 = 1 ∧
    (extractFRS gridRing 10).radius = (coerceOddFilter 10 : ℚ) :=
  ⟨(claim4_odd_coercion gridRing 10 5).1 rfl,
   (claim4_odd_coercion gridRing 11 5).2.1 rfl,
   (claim4_odd_coercion gridRing 10 5).2.2.1,
   (claim4_odd_coercion gridRing 10 5).2.2.2⟩

/-- Claim C5: every cell whose input value is not nodata has its value
copied unchanged to the same position of the output, and consequently on an
input with no hole at all the output equals the input cell for cell. -/
theorem claim5_copy_through (g : Raster) (filterSize : ℕ) :
    (∀ row col : ℕ, g.valueAt row col ≠ g.nodata →
      outputValue g filterSize row col = g.valueAt row col) ∧
    ((∀ row col : ℕ, row < g.rows → col < g.columns →
        g.valueAt row col ≠ g.nodata) →
      ∀ row col : ℕ, row < g.rows → col < g.columns →
        outputValue g filterSize row col = g.valueAt row col) := by
  have hcopy : ∀ row col : ℕ, g.valueAt row col ≠ g.nodata →
      outputValue g filterSize row col = g.valueAt row col := by
    intro row col hv
    rw [outputValue, interpValue, if_neg hv]
  exact ⟨hcopy, fun hall row col hr hc => hcopy row col (hall row col hr hc)⟩

theorem claim5_copy_through_witness :
    gridAllValid.valueAt 0 1 ≠ gridAllValid.nodata ∧
    outputValue gridAllValid 3 0 1 = gridAllValid.valueAt 0 1 :=
  ⟨by decide, (claim5_copy_through gridAllValid 3).1 0 1 (by decide)⟩

/-- Claim C3: during the extraction pass, a cell with a non-nodata value is
inserted into the proximity index exactly once, as the triple
(col, row, value), precisely when at least one of its eight neighbours
(out-of-bounds reads yielding nodata) reads as nodata, and is not inserted
at all otherwise; a nodata cell is never inserted. -/
theorem claim3_boundary_insertion (g : Raster) (filterSize : ℕ) {row col : ℕ}
    (hr : row < g.rows) (hc : col < g.columns) :
    ((extractFRS g filterSize).samples.filter (cellKey row col)) =
      if boundaryCond g row col
      then [((col : ℚ), (row : ℚ), g.valueAt row col)] else [] := by
  rw [samples_filter_key g filterSize hr hc, emitCell]
  by_cases hb : boundaryCond g row col
  · rw [if_pos ⟨hb.1, (firstNodataNeighbor_isSome_iff g row col).mpr hb.2⟩,
      if_pos hb]
  · rw [if_neg fun hh =>
        hb ⟨hh.1, (firstNodataNeighbor_isSome_iff g row col).mp hh.2⟩,
      if_neg hb]

theorem claim3_boundary_insertion_witness :
    (0 : ℕ) < gridRing.rows ∧ (0 : ℕ) < gridRing.columns ∧
    ((extractFRS gridRing 3).samples.filter (cellKey 0 0)) =
      (if boundaryCond gridRing 0 0
        then [(((0 : ℕ) : ℚ), ((0 : ℕ) : ℚ),
          gridRing.valueAt ((0 : ℕ) : ℤ) ((0 : ℕ) : ℤ))]
        else []) :=
  ⟨by decide, by decide, claim3_boundary_insertion gridRing 3 (by decide) (by decide)⟩

/-- Claim C6: whenever at least one positive-distance sample is found for a
hole, the interpolated value lies in the closed interval between the
minimum and the maximum of the values of the samples actually used. -/
theorem claim6_weighted_average_bounded (g : Raster) (filterSize row col : ℕ)
    (lo hi : ℚ)
    (hhole : g.valueAt row col = g.nodata)
    (hne : positiveSamples g filterSize row col ≠ [])
    (hlo : ((positiveSamples g filterSize row col).map fun p => p.1).min? = some lo)
    (hhi : ((positiveSamples g filterSize row col).map fun p => p.1).max? = some hi) :
    lo ≤ outputValue g filterSize row col ∧
      outputValue g filterSize row col ≤ hi := by
  haveI : Std.Antisymm ((· : ℚ) ≤ ·) := ⟨fun h h2 => le_antisymm h h2⟩
  have hmin := (List.min?_eq_some_iff (fun a : ℚ => le_refl a)
    (fun a b => min_choice a b) (fun a b c => le_min_iff)).mp hlo
  have hmax := (List.max?_eq_some_iff (fun a : ℚ => le_refl a)
    (fun a b => max_choice a b) (fun a b c => max_le_iff)).mp hhi
  have hS : 0 < ((positiveSamples g filterSize row col).map fun p => 1 / p.2).sum :=
    weightSum_pos hne
  have hzr := outputValue_hole_ratio g filterSize row col hhole
  constructor
  · rw [hzr, le_div_iff₀ hS]
    calc lo * ((positiveSamples g filterSize row col).map fun p => 1 / p.2).sum
        = ((positiveSamples g filterSize row col).map fun p => lo * (1 / p.2)).sum :=
          (List.sum_map_mul_left _ _ _).symm
      _ ≤ ((positiveSamples g filterSize row col).map fun p => p.1 * (1 / p.2)).sum := by
          apply List.sum_le_sum
          intro p hp
          apply mul_le_mul_of_nonneg_right
          · exact hmin.2 p.1 (List.mem_map.mpr ⟨p, hp, rfl⟩)
          · have := mem_positiveSamples_pos hp
            positivity
  · rw [hzr, div_le_iff₀ hS]
    calc ((positiveSamples g filterSize row col).map fun p => p.1 * (1 / p.2)).sum
        ≤ ((positiveSamples g filterSize row col).map fun p => hi * (1 / p.2)).sum := by
          apply List.sum_le_sum
          intro p hp
          apply mul_le_mul_of_nonneg_right
          · exact hmax.2 p.1 (List.mem_map.mpr ⟨p, hp, rfl⟩)
          · have := mem_positiveSamples_pos hp
            positivity
      _ = hi * ((positiveSamples g filterSize row col).map fun p => 1 / p.2).sum :=
          List.sum_map_mul_left _ _ _

theorem claim6_weighted_average_bounded_witness :
    gridVaried.valueAt 1 1 = gridVaried.nodata ∧
    positiveSamples gridVaried 3 1 1 ≠ [] ∧
    ((positiveSamples gridVaried 3 1 1).map fun p => p.1).min? = some 0 ∧
    ((positiveSamples gridVaried 3 1 1).map fun p => p.1).max? = some 8 ∧
    (0 ≤ outputValue gridVaried 3 1 1 ∧ outputValue gridVaried 3 1 1 ≤ 8) :=
  ⟨by decide, by decide, by decide, by decide,
    claim6_weighted_average_bounded gridVaried 3 1 1 0 8
      (by decide) (by decide) (by decide) (by decide)⟩

/-- Claim C7: a neighbour read at out-of-bounds coordinates behaves as a
read returning the nodata sentinel, and consequently every non-nodata cell
on the outer edge of the grid is classified as a boundary cell and its
sample appears in the proximity index. -/
theorem claim7_edge_boundary (g : Raster) (filterSize : ℕ) {row col : ℕ}
    (hr : row < g.rows) (hc : col < g.columns)
    (hv : g.valueAt row col ≠ g.nodata)
    (hedge : row = 0 ∨ row + 1 = g.rows ∨ col = 0 ∨ col + 1 = g.columns) :
    (∀ r c : ℤ, ¬(0 ≤ r ∧ r < (g.rows : ℤ) ∧ 0 ≤ c ∧ c < (g.columns : ℤ)) →
      g.valueAt r c = g.nodata) ∧
    ((col : ℚ), (row : ℚ), g.valueAt row col) ∈ (extractFRS g filterSize).samples := by
  have hoob : ∀ r c : ℤ, ¬(0 ≤ r ∧ r < (g.rows : ℤ) ∧ 0 ≤ c ∧ c < (g.columns : ℤ)) →
      g.valueAt r c = g.nodata := fun r c h => by rw [Raster.valueAt, if_neg h]
  refine ⟨hoob, ?_⟩
  have hnb : ∃ i < 8, g.valueAt ((row : ℤ) + d_y.getD i 0)
      ((col : ℤ) + d_x.getD i 0) = g.nodata := by
    rcases hedge with h0 | h1 | h2 | h3
    · refine ⟨7, by omega, ?_⟩
      rw [show d_y.getD 7 0 = -1 from rfl, show d_x.getD 7 0 = 0 from rfl]
      exact hoob _ _ (by rintro ⟨ha, -⟩; omega)
    · refine ⟨3, by omega, ?_⟩
      rw [show d_y.getD 3 0 = 1 from rfl, show d_x.getD 3 0 = 0 from rfl]
      exact hoob _ _ (by rintro ⟨-, hb, -⟩; omega)
    · refine ⟨5, by omega, ?_⟩
      rw [show d_y.getD 5 0 = 0 from rfl, show d_x.getD 5 0 = -1 from rfl]
      exact hoob _ _ (by rintro ⟨-, -, hcc, -⟩; omega)
    · refine ⟨1, by omega, ?_⟩
      rw [show d_y.getD 1 0 = 0 from rfl, show d_x.getD 1 0 = 1 from rfl]
      exact hoob _ _ (by rintro ⟨-, -, -, hd⟩; omega)
  have hkey := samples_filter_key g filterSize hr hc
  rw [emitCell, if_pos
    ⟨hv, (firstNodataNeighbor_isSome_iff g row col).mpr hnb⟩] at hkey
  exact List.mem_of_mem_filter
    (hkey ▸ List.mem_singleton_self (((col : ℚ), (row : ℚ), g.valueAt row col)))

theorem claim7_edge_boundary_witness :
    gridRing.valueAt ((0 : ℕ) : ℤ) ((0 : ℕ) : ℤ) ≠ gridRing.nodata ∧
    (((0 : ℕ) : ℚ), ((0 : ℕ) : ℚ), gridRing.valueAt ((0 : ℕ) : ℤ) ((0 : ℕ) : ℤ)) ∈
      (extractFRS gridRing 3).samples :=
  ⟨by decide,
    (claim7_edge_boundary gridRing 3 (by decide) (by decide) (by decide)
      (Or.inl rfl)).2⟩

/-- Claim C8: for a fixed grid and filter sizes f1 at most f2, every sample
the search returns for a hole under the radius derived from f1 is also
returned under the radius derived from f2. -/
theorem claim8_radius_monotone (g : Raster) (f1 f2 : ℕ) (h12 : f1 ≤ f2)
    (row col : ℕ) (_hhole : g.valueAt row col = g.nodata) :
    ∀ q ∈ searchResult g f1 row col, q ∈ searchResult g f2 row col := by
  intro q hq
  rw [searchResult, mem_search_iff] at hq
  rcases hq with ⟨s, hs, hd, rfl⟩
  rw [searchResult, mem_search_iff]
  refine ⟨s, ?_, ?_, rfl⟩
  · rw [extractFRS_samples] at hs ⊢
    exact hs
  · refine le_trans hd ?_
    rw [extractFRS_radius, extractFRS_radius]
    have h := coerceOddFilter_mono h12
    have h1 : (0 : ℚ) ≤ (coerceOddFilter f1 : ℚ) := by positivity
    have h2 : ((coerceOddFilter f1 : ℚ)) ≤ (coerceOddFilter f2 : ℚ) := by
      exact_mod_cast h
    exact mul_le_mul h2 h2 h1 (le_trans h1 h2)

theorem claim8_radius_monotone_witness :
    (3 : ℕ) ≤ 5 ∧ gridRing.valueAt 1 1 = gridRing.nodata ∧
    ((10 : ℚ), (2 : ℚ)) ∈ searchResult gridRing 3 1 1 ∧
    ((10 : ℚ), (2 : ℚ)) ∈ searchResult gridRing 5 1 1 :=
  ⟨by decide, by decide, by decide,
    claim8_radius_monotone gridRing 3 5 (by decide) 1 1 (by decide)
      ((10 : ℚ), (2 : ℚ)) (by decide)⟩

/-- Claim C9: over a complete run the input raster is not mutated by either
pass, the extraction pass writes no raster cell, and the interpolation pass
writes every in-bounds output cell exactly once. -/
theorem claim9_frame (g : Raster) (filterSize : ℕ) {row col : ℕ}
    (hr : row < g.rows) (hc : col < g.columns) :
    (afterExtract g filterSize).input = g ∧
    (afterInterp g filterSize).input = g ∧
    (afterExtract g filterSize).writes = [] ∧
    ((afterInterp g filterSize).writes.countP
      fun w => decide (w.1 = row ∧ w.2.1 = col)) = 1 := by
  refine ⟨by rw [afterExtract_eq], by rw [afterInterp_eq],
    by rw [afterExtract_eq], ?_⟩
  rw [afterInterp_eq]
  show ((cellList g).map
    fun rc => (rc.1, rc.2, outputValue g filterSize rc.1 rc.2)).countP _ = 1
  rw [List.countP_map]
  have hpred : ((fun w : ℕ × ℕ × ℚ => decide (w.1 = row ∧ w.2.1 = col)) ∘
      fun rc : ℕ × ℕ => (rc.1, rc.2, outputValue g filterSize rc.1 rc.2)) =
      fun rc : ℕ × ℕ => decide (rc.1 = row ∧ rc.2 = col) := rfl
  rw [hpred]
  exact countP_eq_one_of_unique (cellList_nodup g) (mem_cellList hr hc)
    (decide_eq_true ⟨rfl, rfl⟩)
    (fun b _ hb => decide_eq_false fun hh => hb (Prod.ext hh.1 hh.2))

theorem claim9_frame_witness :
    (0 : ℕ) < gridRing.rows ∧ (1 : ℕ) < gridRing.columns ∧
    ((afterExtract gridRing 3).input = gridRing ∧
      (afterInterp gridRing 3).input = gridRing ∧
      (afterExtract gridRing 3).writes = [] ∧
      ((afterInterp gridRing 3).writes.countP
        fun w => decide (w.1 = 0 ∧ w.2.1 = 1)) = 1) :=
  ⟨by decide, by decide, claim9_frame gridRing 3 (by decide) (by decide)⟩

/-- Claim C10 counterexample: on a raster whose nodata sentinel is 0, a
hole with no positive-distance sample receives the value 0, which equals
the nodata sentinel, refuting the clause that the written value is never
the nodata sentinel. -/
theorem claim10_zero_counterexample :
    gridZeroNodata.valueAt 0 0 = gridZeroNodata.nodata ∧
    positiveSamples gridZeroNodata 3 0 0 = [] ∧
    outputValue gridZeroNodata 3 0 0 = gridZeroNodata.nodata :=
  ⟨by decide, by decide, by decide⟩

/-- Claim C10 amended: for every hole cell whose search result has no
positive-distance sample, the written value is exactly 0, the initial
accumulator value (the guards skip the division entirely, so in the FP
model the result is the ordinary number 0, not nan), and it differs from
the nodata sentinel whenever the sentinel is nonzero. -/
theorem claim10_zero_amended (g : Raster) (filterSize row col : ℕ)
    (hhole : g.valueAt row col = g.nodata)
    (hempty : positiveSamples g filterSize row col = []) :
    outputValue g filterSize row col = 0 ∧
    outputValueFP g filterSize row col = FP.num 0 ∧
    (g.nodata ≠ 0 → outputValue g filterSize row col ≠ g.nodata) := by
  have h0 := outputValue_empty g filterSize row col hhole hempty
  exact ⟨h0, outputValueFP_empty g filterSize row col hhole hempty,
    fun hnz => by rw [h0]; exact fun he => hnz he.symm⟩

theorem claim10_zero_amended_witness :
    gridAllHole.valueAt 0 0 = gridAllHole.nodata ∧
    positiveSamples gridAllHole 3 0 0 = [] ∧
    (outputValue gridAllHole 3 0 0 = 0 ∧
      outputValueFP gridAllHole 3 0 0 = FP.num 0 ∧
      (gridAllHole.nodata ≠ 0 → outputValue gridAllHole 3 0 0 ≠ gridAllHole.nodata)) :=
  ⟨by decide, by decide, claim10_zero_amended gridAllHole 3 0 0 (by decide) (by decide)⟩

end FillMissingData
